import Mathlib

/-
Verification of the physical-planning stage of the flux query planner.

The definitions below shallowly embed the planner sources. The files
plan/physical.go (physical planner, universal conversion rule, post-physical
validation) and the plan formatter are translated directly; supporting graph
machinery that the sources only reference (PlanSpec internals, BottomUpWalk,
ReplaceNode, CheckIntegrity, the heuristic planner and the logical node type)
is modelled from the specification, as marked on each definition.
-/

namespace FluxPlan

abbrev NodeID := String

/-- Modelled from the spec: per-node time bounds value, the start and stop of
the interval the output of the node covers. -/
structure Bounds where
  start : Int
  stop : Int

/-- Resource quotas owned by the plan: memory quota in bytes and an upper
bound on parallel execution units. -/
structure ResourceManagement where
  ConcurrencyQuota : Int
  MemoryBytesQuota : Int

/-- Operation specification held by a plan node. The Kind tag is as in the
source; the physical capability (the Cost and Copy methods of
PhysicalProcedureSpec) is abstracted to the flag physCap, and the optional
PostPhysicalValidator hook, when implemented, is the function in validator. -/
structure ProcedureSpec where
  kind : String
  physCap : Bool
  validator : Option (NodeID → Option String)

/-- Edges of a node: ordered predecessor and successor identifier lists. -/
structure Edges where
  predecessors : List NodeID
  successors : List NodeID

/-- Common attributes of a plan node: identifier, edges, bounds and the
operation spec. -/
structure NodeCore where
  id : NodeID
  edges : Edges
  bounds : Bounds
  spec : ProcedureSpec

/-- Modelled from the spec: a plan node is polymorphic over exactly two
variants, logical and physical, sharing the common attributes. The
PhysicalPlanNode attribute placeholders (RequiredAttrs, OutputAttrs) are empty
structs in the source and are omitted. -/
inductive PlanNode where
  | LogicalPlanNode : NodeCore → PlanNode
  | PhysicalPlanNode : NodeCore → PlanNode

def PlanNode.core : PlanNode → NodeCore
  | .LogicalPlanNode c => c
  | .PhysicalPlanNode c => c

/-- ID returns the human-readable id of the plan node. -/
def PlanNode.ID (pn : PlanNode) : NodeID := pn.core.id

/-- ProcedureSpec returns the procedure spec of the plan node. -/
def PlanNode.ProcedureSpec (pn : PlanNode) : ProcedureSpec := pn.core.spec

def PlanNode.bounds (pn : PlanNode) : Bounds := pn.core.bounds

def PlanNode.predecessors (pn : PlanNode) : List NodeID := pn.core.edges.predecessors

def PlanNode.successors (pn : PlanNode) : List NodeID := pn.core.edges.successors

/-- The in-source type test pn.(*PhysicalPlanNode). -/
def PlanNode.isPhysical : PlanNode → Bool
  | .LogicalPlanNode _ => false
  | .PhysicalPlanNode _ => true

def PlanNode.withEdges : PlanNode → Edges → PlanNode
  | .LogicalPlanNode c, e => .LogicalPlanNode { c with edges := e }
  | .PhysicalPlanNode c, e => .PhysicalPlanNode { c with edges := e }

def PlanNode.withBounds : PlanNode → Bounds → PlanNode
  | .LogicalPlanNode c, b => .LogicalPlanNode { c with bounds := b }
  | .PhysicalPlanNode c, b => .PhysicalPlanNode { c with bounds := b }

/-- Modelled from the spec: the plan graph owns its root identifiers, the
index of all nodes reachable from the roots, and the global resources. -/
structure PlanSpec where
  Roots : List NodeID
  nodes : List PlanNode
  Resources : ResourceManagement

/-- Node index lookup by identifier. -/
def lookupNode (nodes : List PlanNode) (id : NodeID) : Option PlanNode :=
  nodes.find? (fun n => n.ID == id)

/-- Fuel bound for the graph walk, large enough to traverse every node and
every predecessor edge of an acyclic graph. -/
def walkFuel (nodes : List PlanNode) (roots : List NodeID) : Nat :=
  nodes.foldl (fun acc n => acc + n.predecessors.length + 2) (roots.length + 2)

/-- Modelled from the spec: depth-first traversal from the roots along
predecessor edges, listing each visited node after its predecessors. -/
def walkGo (nodes : List PlanNode) : Nat → List NodeID → List NodeID → List NodeID
  | 0, visited, _ => visited
  | _, visited, [] => visited
  | Nat.succ fuel, visited, id :: rest =>
    if visited.contains id then walkGo nodes fuel visited rest
    else
      match lookupNode nodes id with
      | none => walkGo nodes fuel visited rest
      | some n =>
        let v2 := walkGo nodes fuel visited n.predecessors
        let v3 := if v2.contains id then v2 else v2 ++ [id]
        walkGo nodes fuel v3 rest

/-- Modelled from the spec: the order in which BottomUpWalk visits the nodes,
predecessors before successors, every node reachable from a root exactly
once. -/
def walkOrder (g : PlanSpec) : List NodeID :=
  walkGo g.nodes (walkFuel g.nodes g.Roots) [] g.Roots

/-- Modelled from the spec: the nodes reachable from the roots are exactly
the nodes the bottom-up walk visits. -/
def Reachable (g : PlanSpec) (id : NodeID) : Prop := id ∈ walkOrder g

instance (g : PlanSpec) (id : NodeID) : Decidable (Reachable g id) :=
  inferInstanceAs (Decidable (id ∈ walkOrder g))

/-- Modelled from the spec: BottomUpWalk with a read-only visitor aborts the
whole walk on the first error returned and propagates it. -/
def walkCheck (nodes : List PlanNode) (visit : PlanNode → Option String) :
    List NodeID → Option String
  | [] => none
  | id :: rest =>
    match lookupNode nodes id with
    | none => walkCheck nodes visit rest
    | some n =>
      match visit n with
      | some e => some e
      | none => walkCheck nodes visit rest

def BottomUpWalkCheck (g : PlanSpec) (visit : PlanNode → Option String) : Option String :=
  walkCheck g.nodes visit (walkOrder g)

/-- Replace in the index the node carrying the given identifier. -/
def updateNode (g : PlanSpec) (id : NodeID) (n : PlanNode) : PlanSpec :=
  { g with nodes := g.nodes.map (fun m => if m.ID == id then n else m) }

/-- Modelled from the spec: BottomUpWalk with a visitor that rewrites the
visited node in place, aborting on the first error. -/
def walkUpdate (visit : PlanSpec → PlanNode → Except String PlanNode) :
    List NodeID → PlanSpec → Except String PlanSpec
  | [], g => .ok g
  | id :: rest, g =>
    match lookupNode g.nodes id with
    | none => walkUpdate visit rest g
    | some n =>
      match visit g n with
      | .error e => .error e
      | .ok n2 => walkUpdate visit rest (updateNode g id n2)

def BottomUpWalkUpdate (g : PlanSpec)
    (visit : PlanSpec → PlanNode → Except String PlanNode) : Except String PlanSpec :=
  walkUpdate visit (walkOrder g) g

def boundsUnion (a b : Bounds) : Bounds :=
  { start := min a.start b.start, stop := max a.stop b.stop }

/-- Modelled from the spec: ComputeBounds derives the bounds of each node
from the bounds of its predecessors (their union by default), keeping the
own bounds of a node without predecessors; it reports no error. -/
def ComputeBounds (g : PlanSpec) (pn : PlanNode) : Except String PlanNode :=
  match pn.predecessors.filterMap (fun p => (lookupNode g.nodes p).map PlanNode.bounds) with
  | [] => .ok pn
  | b :: bs => .ok (pn.withBounds (bs.foldl boundsUnion b))

/-- The error text of validatePhysicalPlan for a logical leftover node. -/
def incompleteConversionMsg (id : NodeID) : String :=
  "logical node \"" ++ id ++ "\" could not be converted to a physical node"

/-- The visitor of validatePhysicalPlan: a spec implementing
PostPhysicalValidator is judged by its hook alone; otherwise the node must be
a physical node. -/
def validateVisitor (pn : PlanNode) : Option String :=
  match pn.ProcedureSpec.validator with
  | some v => v pn.ID
  | none => if pn.isPhysical then none else some (incompleteConversionMsg pn.ID)

def validatePhysicalPlan (g : PlanSpec) : Option String :=
  BottomUpWalkCheck g validateVisitor

/-- Modelled from the spec: integrity of one node, every predecessor and
successor pair mutually recorded with no dangling edges. -/
def nodeIntegrity (g : PlanSpec) (n : PlanNode) : Bool :=
  (n.predecessors.all (fun p =>
    match lookupNode g.nodes p with
    | some m => m.successors.contains n.ID
    | none => false))
  && (n.successors.all (fun s =>
    match lookupNode g.nodes s with
    | some m => m.predecessors.contains n.ID
    | none => false))

/-- Modelled from the spec: CheckIntegrity verifies the edge and adjacency
invariant of the graph. -/
def CheckIntegrity (g : PlanSpec) : Option String :=
  if g.nodes.all (nodeIntegrity g) then none else some "plan integrity violated"

/-- A rewrite rule: a name, a pattern over node shape and the node-local
transformation with the three-way result unchanged, rewritten or error. -/
structure Rule where
  name : String
  pattern : PlanNode → Bool
  rewrite : PlanNode → Except String (PlanNode × Bool)

/-- The pattern primitive matching every node. -/
def Any : PlanNode → Bool := fun _ => true

def replaceID (old new : NodeID) (l : List NodeID) : List NodeID :=
  l.map (fun x => if x == old then new else x)

def redirectEdges (old new : NodeID) (n : PlanNode) : PlanNode :=
  n.withEdges
    { predecessors := replaceID old new n.predecessors,
      successors := replaceID old new n.successors }

/-- Modelled from the spec: ReplaceNode rewires every edge that pointed to
the old node to the new node on both ends, hands the edge lists of the old
node to the new node, detaches the old node from the index and redirects root
references, as one index-table update. -/
def ReplaceNode (g : PlanSpec) (oldID : NodeID) (n : PlanNode) : PlanSpec :=
  match lookupNode g.nodes oldID with
  | none => g
  | some old =>
    { g with
      nodes := (g.nodes.filter (fun m => !(m.ID == oldID))).map (redirectEdges oldID n.ID)
        ++ [n.withEdges old.core.edges],
      Roots := replaceID oldID n.ID g.Roots }

/-- One rule applied at one node: when the pattern matches, invoke the
rewrite; a reported change performs the structural replacement. In the Go
source the rewrite of the conversion rule calls ReplaceNode itself; the
embedding factors the structural replacement out of the node-local rewrite. -/
def applyRuleAt (r : Rule) (g : PlanSpec) (id : NodeID) : Except String (PlanSpec × Bool) :=
  match lookupNode g.nodes id with
  | none => .ok (g, false)
  | some pn =>
    if r.pattern pn then
      match r.rewrite pn with
      | .error e => .error e
      | .ok (n2, changed) =>
        if changed then .ok (ReplaceNode g id n2, true) else .ok (g, false)
    else .ok (g, false)

def applyRulesAt : List Rule → PlanSpec → NodeID → Except String (PlanSpec × Bool)
  | [], g, _ => .ok (g, false)
  | r :: rs, g, id =>
    match applyRuleAt r g id with
    | .error e => .error e
    | .ok (g2, c1) =>
      match applyRulesAt rs g2 id with
      | .error e => .error e
      | .ok (g3, c2) => .ok (g3, c1 || c2)

def onePassGo (rules : List Rule) :
    List NodeID → PlanSpec → Bool → Except String (PlanSpec × Bool)
  | [], g, changed => .ok (g, changed)
  | id :: rest, g, changed =>
    match applyRulesAt rules g id with
    | .error e => .error e
    | .ok (g2, c) => onePassGo rules rest g2 (changed || c)

/-- Modelled from the spec: one full pass of the heuristic planner, applying
every active rule to every node present at the start of the pass, recording
whether anything changed. -/
def onePass (rules : List Rule) (g : PlanSpec) : Except String (PlanSpec × Bool) :=
  onePassGo rules (g.nodes.map PlanNode.ID) g false

/-- Modelled from the spec: the configured iteration bound of the heuristic
planner. -/
def maxPasses : Nat := 100

/-- Modelled from the spec: repeat full passes until a pass changes nothing,
the iteration bound is exceeded, or a rule reports an error. -/
def heuristicLoop (rules : List Rule) : Nat → PlanSpec → Except String PlanSpec
  | 0, _ => .error "heuristic planner iteration bound exceeded"
  | Nat.succ fuel, g =>
    match onePass rules g with
    | .error e => .error e
    | .ok (g2, changed) => if changed then heuristicLoop rules fuel g2 else .ok g2

def heuristicPlan (rules : List Rule) (g : PlanSpec) : Except String PlanSpec :=
  heuristicLoop rules maxPasses g

/-- The physical counterpart node built by the conversion rule: same bounds
and spec, identifier prefixed, no edges yet. -/
def physCounterpart (ln : NodeCore) : PlanNode :=
  .PhysicalPlanNode
    { id := "phys_" ++ ln.id,
      edges := { predecessors := [], successors := [] },
      bounds := ln.bounds,
      spec := ln.spec }

/-- The logical branch of the conversion rewrite: convert when the spec is
physical-capable, otherwise defer to another rule. -/
def convertLogicalNode (pn : PlanNode) (ln : NodeCore) : Except String (PlanNode × Bool) :=
  if ln.spec.physCap then .ok (physCounterpart ln, true) else .ok (pn, false)

/-- The rewrite of physicalConverterRule: a no-op on an already-physical
node, a conversion when the spec is physical-capable, a deferral otherwise. -/
def physicalConverterRewrite (pn : PlanNode) : Except String (PlanNode × Bool) :=
  match pn with
  | .PhysicalPlanNode _ => .ok (pn, false)
  | .LogicalPlanNode ln => convertLogicalNode pn ln

/-- The in-source type assertion pn.(*LogicalPlanNode) as a checked cast;
none stands for the panic on any other variant. -/
def asLogicalPlanNode : PlanNode → Option NodeCore
  | .LogicalPlanNode c => some c
  | .PhysicalPlanNode _ => none

/-- The conversion rewrite with the unchecked cast made explicit: a result of
none models the panic of the Go type assertion. -/
def physicalConverterRewriteChecked (pn : PlanNode) :
    Option (Except String (PlanNode × Bool)) :=
  match pn with
  | .PhysicalPlanNode _ => some (.ok (pn, false))
  | .LogicalPlanNode _ => Option.map (convertLogicalNode pn) (asLogicalPlanNode pn)

def physicalConverterRule : Rule :=
  { name := "physicalConverterRule", pattern := Any, rewrite := physicalConverterRewrite }

/-- The physical planner state: active rules, default memory limit and the
validation switch. -/
structure physicalPlanner where
  rules : List Rule
  defaultMemoryLimit : Int
  disableValidation : Bool

/-- A physical option transforms the planner configuration. -/
abbrev PhysicalOption := physicalPlanner → physicalPlanner

def WithDefaultMemoryLimit (memBytes : Int) : PhysicalOption :=
  fun p => { p with defaultMemoryLimit := memBytes }

def DisableValidation : PhysicalOption :=
  fun p => { p with disableValidation := true }

/-- Modelled from the spec: addRules appends rules, overwriting by name to
keep the active collection de-duplicated. -/
def addRule (rules : List Rule) (r : Rule) : List Rule :=
  if rules.any (fun q => q.name == r.name)
  then rules.map (fun q => if q.name == r.name then r else q)
  else rules ++ [r]

def addRules (rules : List Rule) (newRules : List Rule) : List Rule :=
  newRules.foldl addRule rules

def OnlyPhysicalRules (rules : List Rule) : PhysicalOption :=
  fun p => { p with rules := addRules [] rules }

/-- The math.MaxInt64 initial default memory limit. -/
def defaultMemoryLimitInit : Int := 9223372036854775807

/-- NewPhysicalPlanner installs the registered physical rules plus the
conversion rule, then applies the options; the process-wide rule registry of
the Go source is passed explicitly. -/
def NewPhysicalPlanner (registered : List Rule) (options : List PhysicalOption) :
    physicalPlanner :=
  options.foldl (fun p o => o p)
    { rules := addRules (addRules [] registered) [physicalConverterRule],
      defaultMemoryLimit := defaultMemoryLimitInit,
      disableValidation := false }

/-- The quota-defaulting tail of Plan: default the memory quota when unset,
then default the concurrency quota to the root count when unset. -/
def applyQuotas (pp : physicalPlanner) (t : PlanSpec) : PlanSpec :=
  let r1 := if t.Resources.MemoryBytesQuota = 0
            then { t.Resources with MemoryBytesQuota := pp.defaultMemoryLimit }
            else t.Resources
  let r2 := if r1.ConcurrencyQuota = 0
            then { r1 with ConcurrencyQuota := (t.Roots.length : Int) }
            else r1
  { t with Resources := r2 }

/-- The Plan pipeline: heuristic planning, bounds walk, then unless
validation is disabled the integrity check and the physical validation walk,
and finally the quota defaulting. -/
def physicalPlanner.Plan (pp : physicalPlanner) (spec : PlanSpec) : Except String PlanSpec :=
  match heuristicPlan pp.rules spec with
  | .error e => .error e
  | .ok transformedSpec =>
    match BottomUpWalkUpdate transformedSpec ComputeBounds with
    | .error e => .error e
    | .ok t2 =>
      if pp.disableValidation then .ok (applyQuotas pp t2)
      else
        match CheckIntegrity t2 with
        | some e => .error e
        | none =>
          match validatePhysicalPlan t2 with
          | some e => .error e
          | none => .ok (applyQuotas pp t2)

/-- The plan formatter state: title and the plan to render. -/
structure formatter where
  t : String
  p : PlanSpec

abbrev FormatOption := formatter → formatter

def Formatted (p : PlanSpec) (opts : List FormatOption) : formatter :=
  opts.foldl (fun f o => o f) { t := "plan", p := p }

def FormatTitle (title : String) : FormatOption :=
  fun f => { f with t := title }

/-- The walk of Format: emit one statement line per visited node and collect
one edge string per predecessor edge. -/
def formatGo (nodes : List PlanNode) :
    List NodeID → String × List String → String × List String
  | [], acc => acc
  | id :: rest, acc =>
    match lookupNode nodes id with
    | none => formatGo nodes rest acc
    | some n =>
      formatGo nodes rest
        (acc.1 ++ "  " ++ n.ID ++ "\n",
         acc.2 ++ n.predecessors.map (fun pred => "  " ++ pred ++ " -> " ++ n.ID))

/-- Print the collected edge strings, one line each. -/
def printEdges : List String → String
  | [] => ""
  | e :: rest => e ++ "\n" ++ printEdges rest

/-- Format renders the plan as a directed-graph text block; the writer output
is the concatenation of the emitted pieces. -/
def formatter.Format (f : formatter) : String :=
  let acc := formatGo f.p.nodes (walkOrder f.p) ("", [])
  "\ndigraph " ++ f.t ++ " \x7b\n" ++ acc.1 ++ "\n" ++ printEdges acc.2 ++ "\x7d\n"

/-- Spec-side projection: the node statement lines of the rendering, one line
per visited node. -/
def nodeStr (nodes : List PlanNode) : List NodeID → String
  | [] => ""
  | id :: rest =>
    (match lookupNode nodes id with
     | none => ""
     | some n => "  " ++ n.ID ++ "\n") ++ nodeStr nodes rest

/-- Spec-side projection: the edge strings of the rendering, one entry
"predecessor -> successor" per edge in visit order. -/
def edgeLineList (nodes : List PlanNode) : List NodeID → List String
  | [] => []
  | id :: rest =>
    (match lookupNode nodes id with
     | none => []
     | some n => n.predecessors.map (fun pred => "  " ++ pred ++ " -> " ++ n.ID))
    ++ edgeLineList nodes rest

theorem withEdges_ID (n : PlanNode) (e : Edges) : (n.withEdges e).ID = n.ID := by
  cases n <;> rfl

theorem withEdges_isPhysical (n : PlanNode) (e : Edges) :
    (n.withEdges e).isPhysical = n.isPhysical := by
  cases n <;> rfl

theorem withEdges_bounds (n : PlanNode) (e : Edges) : (n.withEdges e).bounds = n.bounds := by
  cases n <;> rfl

theorem withEdges_ProcedureSpec (n : PlanNode) (e : Edges) :
    (n.withEdges e).ProcedureSpec = n.ProcedureSpec := by
  cases n <;> rfl

theorem redirectEdges_ID (old new : NodeID) (n : PlanNode) :
    (redirectEdges old new n).ID = n.ID := by
  cases n <;> rfl

theorem lookupNode_id {nodes : List PlanNode} {id : NodeID} {n : PlanNode}
    (h : lookupNode nodes id = some n) : n.ID = id := by
  have := List.find?_some h
  exact eq_of_beq this

theorem lookupNode_mem {nodes : List PlanNode} {id : NodeID} {n : PlanNode}
    (h : lookupNode nodes id = some n) : n ∈ nodes :=
  List.mem_of_find?_eq_some h

theorem walkCheck_eq_none_iff (nodes : List PlanNode) (visit : PlanNode → Option String)
    (ids : List NodeID) :
    walkCheck nodes visit ids = none ↔
      ∀ id ∈ ids, ∀ n, lookupNode nodes id = some n → visit n = none := by
  induction ids with
  | nil => simp [walkCheck]
  | cons id rest ih =>
    cases h : lookupNode nodes id with
    | none =>
      simp only [walkCheck, h, ih]
      constructor
      · intro hr id0 hm n hl
        rcases List.mem_cons.mp hm with rfl | hm2
        · rw [h] at hl; exact absurd hl (by simp)
        · exact hr id0 hm2 n hl
      · intro hr id0 hm n hl
        exact hr id0 (List.mem_cons_of_mem _ hm) n hl
    | some n =>
      cases hv : visit n with
      | some e =>
        simp only [walkCheck, h, hv]
        constructor
        · intro hr; exact absurd hr (by simp)
        · intro hr
          have := hr id (List.mem_cons_self id rest) n h
          rw [hv] at this
          exact absurd this (by simp)
      | none =>
        simp only [walkCheck, h, hv, ih]
        constructor
        · intro hr id0 hm n0 hl
          rcases List.mem_cons.mp hm with rfl | hm2
          · rw [h] at hl; cases hl; exact hv
          · exact hr id0 hm2 n0 hl
        · intro hr id0 hm n0 hl
          exact hr id0 (List.mem_cons_of_mem _ hm) n0 hl

theorem ReplaceNode_Resources (g : PlanSpec) (id : NodeID) (n : PlanNode) :
    (ReplaceNode g id n).Resources = g.Resources := by
  unfold ReplaceNode
  split <;> rfl

theorem applyRuleAt_Resources {r : Rule} {g : PlanSpec} {id : NodeID} {g2 : PlanSpec}
    {c : Bool} (h : applyRuleAt r g id = .ok (g2, c)) : g2.Resources = g.Resources := by
  unfold applyRuleAt at h
  split at h
  · cases h; rfl
  · split at h
    · split at h
      · cases h
      · split at h
        · cases h; exact ReplaceNode_Resources ..
        · cases h; rfl
    · cases h; rfl

theorem applyRulesAt_Resources :
    ∀ {rs : List Rule} {g : PlanSpec} {id : NodeID} {g2 : PlanSpec} {c : Bool},
      applyRulesAt rs g id = .ok (g2, c) → g2.Resources = g.Resources := by
  intro rs
  induction rs with
  | nil => intro g id g2 c h; cases h; rfl
  | cons r rest ih =>
    intro g id g2 c h
    unfold applyRulesAt at h
    split at h
    · cases h
    · rename_i ga ca hga
      split at h
      · cases h
      · rename_i gb cb hgb
        cases h
        exact (ih hgb).trans (applyRuleAt_Resources hga)

theorem onePassGo_Resources {rules : List Rule} :
    ∀ {ids : List NodeID} {g : PlanSpec} {changed : Bool} {g2 : PlanSpec} {c : Bool},
      onePassGo rules ids g changed = .ok (g2, c) → g2.Resources = g.Resources := by
  intro ids
  induction ids with
  | nil => intro g changed g2 c h; cases h; rfl
  | cons id rest ih =>
    intro g changed g2 c h
    unfold onePassGo at h
    split at h
    · cases h
    · rename_i ga ca hga
      exact (ih h).trans (applyRulesAt_Resources hga)

theorem heuristicLoop_Resources {rules : List Rule} :
    ∀ {fuel : Nat} {g g2 : PlanSpec},
      heuristicLoop rules fuel g = .ok g2 → g2.Resources = g.Resources := by
  intro fuel
  induction fuel with
  | zero => intro g g2 h; cases h
  | succ fuel ih =>
    intro g g2 h
    unfold heuristicLoop at h
    split at h
    · cases h
    · rename_i ga ca hga
      split at h
      · exact (ih h).trans (onePassGo_Resources hga)
      · cases h; exact onePassGo_Resources hga

theorem heuristicPlan_Resources {rules : List Rule} {g g2 : PlanSpec}
    (h : heuristicPlan rules g = .ok g2) : g2.Resources = g.Resources :=
  heuristicLoop_Resources h

theorem walkUpdate_Resources {visit : PlanSpec → PlanNode → Except String PlanNode} :
    ∀ {ids : List NodeID} {g g2 : PlanSpec},
      walkUpdate visit ids g = .ok g2 → g2.Resources = g.Resources := by
  intro ids
  induction ids with
  | nil => intro g g2 h; cases h; rfl
  | cons id rest ih =>
    intro g g2 h
    unfold walkUpdate at h
    split at h
    · exact ih h
    · split at h
      · cases h
      · exact (ih h).trans rfl

theorem applyQuotas_nodes (pp : physicalPlanner) (t : PlanSpec) :
    (applyQuotas pp t).nodes = t.nodes := rfl

theorem applyQuotas_Roots (pp : physicalPlanner) (t : PlanSpec) :
    (applyQuotas pp t).Roots = t.Roots := rfl

theorem walkOrder_applyQuotas (pp : physicalPlanner) (t : PlanSpec) :
    walkOrder (applyQuotas pp t) = walkOrder t := rfl

theorem applyQuotas_mem_zero {pp : physicalPlanner} {t : PlanSpec}
    (h : t.Resources.MemoryBytesQuota = 0) :
    (applyQuotas pp t).Resources.MemoryBytesQuota = pp.defaultMemoryLimit := by
  unfold applyQuotas
  rw [if_pos h]
  dsimp only
  split <;> rfl

theorem applyQuotas_mem_nonzero {pp : physicalPlanner} {t : PlanSpec}
    (h : t.Resources.MemoryBytesQuota ≠ 0) :
    (applyQuotas pp t).Resources.MemoryBytesQuota = t.Resources.MemoryBytesQuota := by
  unfold applyQuotas
  rw [if_neg h]
  dsimp only
  split <;> rfl

theorem applyQuotas_conc_zero {pp : physicalPlanner} {t : PlanSpec}
    (h : t.Resources.ConcurrencyQuota = 0) :
    (applyQuotas pp t).Resources.ConcurrencyQuota = (t.Roots.length : Int) := by
  unfold applyQuotas
  split <;> simp [h]

theorem applyQuotas_conc_nonzero {pp : physicalPlanner} {t : PlanSpec}
    (h : t.Resources.ConcurrencyQuota ≠ 0) :
    (applyQuotas pp t).Resources.ConcurrencyQuota = t.Resources.ConcurrencyQuota := by
  unfold applyQuotas
  split <;> simp [if_neg h]

theorem plan_success_shape {pp : physicalPlanner} {spec out : PlanSpec}
    (h : physicalPlanner.Plan pp spec = .ok out) :
    ∃ t t2, heuristicPlan pp.rules spec = .ok t
      ∧ BottomUpWalkUpdate t ComputeBounds = .ok t2
      ∧ out = applyQuotas pp t2
      ∧ (pp.disableValidation = false →
          CheckIntegrity t2 = none ∧ validatePhysicalPlan t2 = none) := by
  unfold physicalPlanner.Plan at h
  split at h
  · cases h
  · rename_i t ht
    split at h
    · cases h
    · rename_i t2 ht2
      split at h
      · rename_i hdv
        cases h
        exact ⟨t, t2, ht, ht2, rfl, fun hfalse => by rw [hfalse] at hdv; cases hdv⟩
      · rename_i hdv
        split at h
        · cases h
        · rename_i hci
          split at h
          · cases h
          · rename_i hvp
            cases h
            exact ⟨t, t2, ht, ht2, rfl, fun _ => ⟨hci, hvp⟩⟩

theorem validate_first_error (nodes : List PlanNode)
    (hooks : ∀ n, n ∈ nodes → ∀ v, n.ProcedureSpec.validator = some v → v n.ID = none) :
    ∀ (ids : List NodeID) (id0 : NodeID) (n0 : PlanNode), id0 ∈ ids →
      lookupNode nodes id0 = some n0 → n0.isPhysical = false →
      n0.ProcedureSpec.validator = none →
      ∃ id n, id ∈ ids ∧ lookupNode nodes id = some n ∧ n.isPhysical = false
        ∧ n.ProcedureSpec.validator = none
        ∧ walkCheck nodes validateVisitor ids = some (incompleteConversionMsg n.ID) := by
  intro ids
  induction ids with
  | nil =>
    intro id0 n0 hm
    exact absurd hm (List.not_mem_nil _)
  | cons id rest ih =>
    intro id0 n0 hm0 hl0 hp0 hv0
    cases h : lookupNode nodes id with
    | none =>
      have hmem : id0 ∈ rest := by
        rcases List.mem_cons.mp hm0 with rfl | hm2
        · rw [h] at hl0; cases hl0
        · exact hm2
      obtain ⟨i, n, hi, hl, hp, hv, hw⟩ := ih id0 n0 hmem hl0 hp0 hv0
      exact ⟨i, n, List.mem_cons_of_mem _ hi, hl, hp, hv,
        by simp only [walkCheck, h]; exact hw⟩
    | some n =>
      cases hval : n.ProcedureSpec.validator with
      | some v =>
        have hvis : validateVisitor n = none := by
          simp [validateVisitor, hval, hooks n (lookupNode_mem h) v hval]
        have hmem : id0 ∈ rest := by
          rcases List.mem_cons.mp hm0 with rfl | hm2
          · rw [h] at hl0; cases hl0; rw [hval] at hv0; cases hv0
          · exact hm2
        obtain ⟨i, n2, hi, hl, hp, hv, hw⟩ := ih id0 n0 hmem hl0 hp0 hv0
        exact ⟨i, n2, List.mem_cons_of_mem _ hi, hl, hp, hv,
          by simp only [walkCheck, h, hvis]; exact hw⟩
      | none =>
        cases hphys : n.isPhysical with
        | true =>
          have hvis : validateVisitor n = none := by
            simp [validateVisitor, hval, hphys]
          have hmem : id0 ∈ rest := by
            rcases List.mem_cons.mp hm0 with rfl | hm2
            · rw [h] at hl0; cases hl0; rw [hphys] at hp0; cases hp0
            · exact hm2
          obtain ⟨i, n2, hi, hl, hp, hv, hw⟩ := ih id0 n0 hmem hl0 hp0 hv0
          exact ⟨i, n2, List.mem_cons_of_mem _ hi, hl, hp, hv,
            by simp only [walkCheck, h, hvis]; exact hw⟩
        | false =>
          have hvis : validateVisitor n = some (incompleteConversionMsg n.ID) := by
            simp [validateVisitor, hval, hphys]
          exact ⟨id, n, List.mem_cons_self id rest, h, hphys, hval,
            by simp only [walkCheck, h, hvis]⟩

theorem appendPhys_ne (s : String) : "phys_" ++ s ≠ s := by
  intro h
  have hlen := congrArg String.length h
  rw [String.length_append] at hlen
  have h5 : "phys_".length = 5 := rfl
  rw [h5] at hlen
  omega

/-- C1: after a successful Plan call with validation enabled, every node
reachable from a root either is a physical node or carries a
PostPhysicalValidator hook that returned no error during the validation
walk. -/
theorem plan_postcondition_physical_or_hook (pp : physicalPlanner) (spec out : PlanSpec)
    (hdv : pp.disableValidation = false)
    (hp : physicalPlanner.Plan pp spec = .ok out) :
    ∀ id n, Reachable out id → lookupNode out.nodes id = some n →
      n.isPhysical = true ∨ ∃ v, n.ProcedureSpec.validator = some v ∧ v n.ID = none := by
  obtain ⟨t, t2, ht, ht2, rfl, hval⟩ := plan_success_shape hp
  obtain ⟨hci, hvp⟩ := hval hdv
  intro id n hr hl
  have hr2 : id ∈ walkOrder t2 := by
    rw [Reachable, walkOrder_applyQuotas] at hr
    exact hr
  have hl2 : lookupNode t2.nodes id = some n := by
    rw [applyQuotas_nodes] at hl
    exact hl
  have hvp2 : walkCheck t2.nodes validateVisitor (walkOrder t2) = none := hvp
  have hvisit := (walkCheck_eq_none_iff t2.nodes validateVisitor (walkOrder t2)).mp
    hvp2 id hr2 n hl2
  cases hvv : n.ProcedureSpec.validator with
  | some v =>
    right
    refine ⟨v, rfl, ?_⟩
    simp only [validateVisitor, hvv] at hvisit
    exact hvisit
  | none =>
    left
    cases hphys : n.isPhysical with
    | true => rfl
    | false =>
      simp only [validateVisitor, hvv, hphys] at hvisit
      exact absurd hvisit (by simp)

def wnodeC1 : PlanNode :=
  .PhysicalPlanNode
    { id := "n1",
      edges := { predecessors := [], successors := [] },
      bounds := { start := 0, stop := 0 },
      spec := { kind := "k", physCap := true, validator := none } }

def wplanC1 : PlanSpec :=
  { Roots := ["n1"], nodes := [wnodeC1],
    Resources := { ConcurrencyQuota := 0, MemoryBytesQuota := 0 } }

def wppC1 : physicalPlanner :=
  { rules := [], defaultMemoryLimit := 7, disableValidation := false }

def woutC1 : PlanSpec :=
  { Roots := ["n1"], nodes := [wnodeC1],
    Resources := { ConcurrencyQuota := 1, MemoryBytesQuota := 7 } }

theorem plan_postcondition_physical_or_hook_witness :
    wnodeC1.isPhysical = true
      ∨ ∃ v, wnodeC1.ProcedureSpec.validator = some v ∧ v wnodeC1.ID = none :=
  plan_postcondition_physical_or_hook wppC1 wplanC1 woutC1 rfl rfl "n1" wnodeC1
    (by decide) rfl

/-- C2: on a logical node with a physical-capable spec the conversion rewrite
builds a new physical node with the same bounds and the phys_-prefixed
identifier, replaces the logical node with it in the graph, and reports a
change with no error. -/
theorem converter_rewrite_converts (g : PlanSpec) (id : NodeID) (ln : NodeCore)
    (hl : lookupNode g.nodes id = some (.LogicalPlanNode ln))
    (hcap : ln.spec.physCap = true) :
    ∃ nn, physicalConverterRewrite (.LogicalPlanNode ln) = .ok (nn, true)
      ∧ nn.bounds = ln.bounds
      ∧ nn.ID = "phys_" ++ ln.id
      ∧ applyRuleAt physicalConverterRule g id = .ok (ReplaceNode g id nn, true)
      ∧ (∀ m ∈ (ReplaceNode g id nn).nodes, m.ID ≠ id)
      ∧ ∃ m, m ∈ (ReplaceNode g id nn).nodes ∧ m.ID = "phys_" ++ ln.id
          ∧ m.isPhysical = true ∧ m.bounds = ln.bounds ∧ m.ProcedureSpec = ln.spec := by
  have hid : ln.id = id := lookupNode_id hl
  have hneq : (physCounterpart ln).ID ≠ id := by
    show "phys_" ++ ln.id ≠ id
    rw [hid]
    exact appendPhys_ne id
  refine ⟨physCounterpart ln, ?_, rfl, rfl, ?_, ?_, ?_⟩
  · simp [physicalConverterRewrite, convertLogicalNode, hcap]
  · simp [applyRuleAt, hl, physicalConverterRule, Any, physicalConverterRewrite,
      convertLogicalNode, hcap]
  · intro m hm
    simp only [ReplaceNode, hl] at hm
    rcases List.mem_append.mp hm with hm1 | hm2
    · obtain ⟨m0, hm0, rfl⟩ := List.mem_map.mp hm1
      rw [redirectEdges_ID]
      have := (List.mem_filter.mp hm0).2
      simpa using this
    · rw [List.mem_singleton] at hm2
      subst hm2
      rw [withEdges_ID]
      exact hneq
  · refine ⟨(physCounterpart ln).withEdges (PlanNode.LogicalPlanNode ln).core.edges,
      ?_, ?_, ?_, ?_, ?_⟩
    · simp only [ReplaceNode, hl]
      exact List.mem_append_right _ (List.mem_singleton_self _)
    · rw [withEdges_ID]; rfl
    · rw [withEdges_isPhysical]; rfl
    · rw [withEdges_bounds]; rfl
    · rw [withEdges_ProcedureSpec]; rfl

def wlnC2 : NodeCore :=
  { id := "N1",
    edges := { predecessors := [], successors := [] },
    bounds := { start := 3, stop := 5 },
    spec := { kind := "k", physCap := true, validator := none } }

def wplanC2 : PlanSpec :=
  { Roots := ["N1"], nodes := [.LogicalPlanNode wlnC2],
    Resources := { ConcurrencyQuota := 0, MemoryBytesQuota := 0 } }

theorem converter_rewrite_converts_witness :
    ∃ nn, physicalConverterRewrite (.LogicalPlanNode wlnC2) = .ok (nn, true)
      ∧ nn.bounds = wlnC2.bounds
      ∧ nn.ID = "phys_" ++ wlnC2.id
      ∧ applyRuleAt physicalConverterRule wplanC2 "N1" = .ok (ReplaceNode wplanC2 "N1" nn, true)
      ∧ (∀ m ∈ (ReplaceNode wplanC2 "N1" nn).nodes, m.ID ≠ "N1")
      ∧ ∃ m, m ∈ (ReplaceNode wplanC2 "N1" nn).nodes ∧ m.ID = "phys_" ++ wlnC2.id
          ∧ m.isPhysical = true ∧ m.bounds = wlnC2.bounds ∧ m.ProcedureSpec = wlnC2.spec :=
  converter_rewrite_converts wplanC2 "N1" wlnC2 rfl rfl

/-- C3: after a successful Plan call a zero memory quota is defaulted to the
configured limit (settable through WithDefaultMemoryLimit) and kept
otherwise, and a zero concurrency quota is defaulted to the root count of the
output graph and kept otherwise. -/
theorem plan_quota_defaulting :
    (∀ (pp : physicalPlanner) (spec out : PlanSpec),
      physicalPlanner.Plan pp spec = .ok out →
        (spec.Resources.MemoryBytesQuota = 0 →
          out.Resources.MemoryBytesQuota = pp.defaultMemoryLimit)
        ∧ (spec.Resources.MemoryBytesQuota ≠ 0 →
          out.Resources.MemoryBytesQuota = spec.Resources.MemoryBytesQuota)
        ∧ (spec.Resources.ConcurrencyQuota = 0 →
          out.Resources.ConcurrencyQuota = (out.Roots.length : Int))
        ∧ (spec.Resources.ConcurrencyQuota ≠ 0 →
          out.Resources.ConcurrencyQuota = spec.Resources.ConcurrencyQuota))
    ∧ (∀ (registered : List Rule) (m : Int),
        (NewPhysicalPlanner registered [WithDefaultMemoryLimit m]).defaultMemoryLimit = m) := by
  constructor
  · intro pp spec out hp
    obtain ⟨t, t2, ht, ht2, rfl, _⟩ := plan_success_shape hp
    have hres : t2.Resources = spec.Resources := by
      have h1 := heuristicPlan_Resources ht
      have h2 : t2.Resources = t.Resources := walkUpdate_Resources ht2
      rw [h2, h1]
    refine ⟨?_, ?_, ?_, ?_⟩
    · intro h0
      exact applyQuotas_mem_zero (by rw [hres]; exact h0)
    · intro h0
      rw [applyQuotas_mem_nonzero (by rw [hres]; exact h0), hres]
    · intro h0
      rw [applyQuotas_Roots, applyQuotas_conc_zero (by rw [hres]; exact h0)]
    · intro h0
      rw [applyQuotas_conc_nonzero (by rw [hres]; exact h0), hres]
  · intro registered m
    rfl

theorem plan_quota_defaulting_witness :
    woutC1.Resources.MemoryBytesQuota = wppC1.defaultMemoryLimit
      ∧ woutC1.Resources.ConcurrencyQuota = (woutC1.Roots.length : Int) :=
  ⟨(plan_quota_defaulting.1 wppC1 wplanC1 woutC1 rfl).1 rfl,
   (plan_quota_defaulting.1 wppC1 wplanC1 woutC1 rfl).2.2.1 rfl⟩

/-- C4 amended: a graph that still holds a reachable logical node without a
validation hook after rewriting always makes Plan fail under validation;
provided additionally that the integrity check passes and that no hook on the
graph fails, the returned error carries the identifier of such an offending
node, the first one reached by the walk. The original unconditional
error-naming sentence is refuted by the counterexample below. -/
theorem plan_incomplete_conversion_error (pp : physicalPlanner) (spec t t2 : PlanSpec)
    (hdv : pp.disableValidation = false)
    (ht : heuristicPlan pp.rules spec = .ok t)
    (ht2 : BottomUpWalkUpdate t ComputeBounds = .ok t2)
    (hoff : ∃ id n, Reachable t2 id ∧ lookupNode t2.nodes id = some n
      ∧ n.isPhysical = false ∧ n.ProcedureSpec.validator = none) :
    (∃ e, physicalPlanner.Plan pp spec = .error e)
    ∧ (CheckIntegrity t2 = none →
      (∀ n, n ∈ t2.nodes → ∀ v, n.ProcedureSpec.validator = some v → v n.ID = none) →
      ∃ id n, Reachable t2 id ∧ lookupNode t2.nodes id = some n
        ∧ n.isPhysical = false ∧ n.ProcedureSpec.validator = none
        ∧ physicalPlanner.Plan pp spec = .error (incompleteConversionMsg n.ID)) := by
  obtain ⟨id0, n0, hr0, hl0, hp0, hv0⟩ := hoff
  constructor
  · cases hci : CheckIntegrity t2 with
    | some e =>
      exact ⟨e, by simp [physicalPlanner.Plan, ht, ht2, hdv, hci]⟩
    | none =>
      cases hvp : validatePhysicalPlan t2 with
      | none =>
        have hvp2 : walkCheck t2.nodes validateVisitor (walkOrder t2) = none := hvp
        have := (walkCheck_eq_none_iff t2.nodes validateVisitor (walkOrder t2)).mp
          hvp2 id0 hr0 n0 hl0
        simp only [validateVisitor, hv0, hp0] at this
        exact absurd this (by simp)
      | some e =>
        exact ⟨e, by simp [physicalPlanner.Plan, ht, ht2, hdv, hci, hvp]⟩
  · intro hci hooks
    obtain ⟨i, n, hi, hl, hp, hv, hw⟩ :=
      validate_first_error t2.nodes hooks (walkOrder t2) id0 n0 hr0 hl0 hp0 hv0
    refine ⟨i, n, hi, hl, hp, hv, ?_⟩
    have hvp : validatePhysicalPlan t2 = some (incompleteConversionMsg n.ID) := hw
    simp [physicalPlanner.Plan, ht, ht2, hdv, hci, hvp]

def wlnC4 : NodeCore :=
  { id := "N1",
    edges := { predecessors := [], successors := [] },
    bounds := { start := 0, stop := 0 },
    spec := { kind := "k", physCap := false, validator := none } }

def wplanC4 : PlanSpec :=
  { Roots := ["N1"], nodes := [.LogicalPlanNode wlnC4],
    Resources := { ConcurrencyQuota := 0, MemoryBytesQuota := 0 } }

def wppC4 : physicalPlanner :=
  { rules := [], defaultMemoryLimit := 9, disableValidation := false }

theorem plan_incomplete_conversion_error_witness :
    ∃ id n, Reachable wplanC4 id ∧ lookupNode wplanC4.nodes id = some n
      ∧ n.isPhysical = false ∧ n.ProcedureSpec.validator = none
      ∧ physicalPlanner.Plan wppC4 wplanC4 = .error (incompleteConversionMsg n.ID) :=
  (plan_incomplete_conversion_error wppC4 wplanC4 wplanC4 wplanC4 rfl rfl rfl
    ⟨"N1", .LogicalPlanNode wlnC4, by decide, rfl, rfl, rfl⟩).2 rfl
    (by
      intro n hn v hv
      have hn2 : n = .LogicalPlanNode wlnC4 := by simpa [wplanC4] using hn
      subst hn2
      simp [wlnC4, PlanNode.ProcedureSpec, PlanNode.core] at hv)

def whookCE4 : NodeID → Option String := fun _ => some "hookfail"

def wpnCE4H : PlanNode :=
  .PhysicalPlanNode
    { id := "H",
      edges := { predecessors := [], successors := ["L"] },
      bounds := { start := 0, stop := 0 },
      spec := { kind := "k", physCap := true, validator := some whookCE4 } }

def wlnCE4L : NodeCore :=
  { id := "L",
    edges := { predecessors := ["H"], successors := [] },
    bounds := { start := 0, stop := 0 },
    spec := { kind := "k", physCap := false, validator := none } }

def wplanCE4 : PlanSpec :=
  { Roots := ["L"], nodes := [wpnCE4H, .LogicalPlanNode wlnCE4L],
    Resources := { ConcurrencyQuota := 0, MemoryBytesQuota := 0 } }

def wppCE4 : physicalPlanner :=
  { rules := [], defaultMemoryLimit := 9, disableValidation := false }

/-- Counterexample to the original C4: with validation enabled the graph
holds the reachable still-logical hook-less node L (unchanged by rewriting),
yet Plan returns the error of the failing hook of the predecessor H, which is
not the incomplete-conversion message for L and does not even mention the
identifier L. -/
theorem plan_incomplete_conversion_error_counterexample :
    wppCE4.disableValidation = false
    ∧ heuristicPlan wppCE4.rules wplanCE4 = .ok wplanCE4
    ∧ Reachable wplanCE4 "L"
    ∧ lookupNode wplanCE4.nodes "L" = some (.LogicalPlanNode wlnCE4L)
    ∧ (PlanNode.LogicalPlanNode wlnCE4L).isPhysical = false
    ∧ (PlanNode.LogicalPlanNode wlnCE4L).ProcedureSpec.validator = none
    ∧ physicalPlanner.Plan wppCE4 wplanCE4 = .error "hookfail"
    ∧ "hookfail" ≠ incompleteConversionMsg "L"
    ∧ ¬ ('L' ∈ "hookfail".data) :=
  ⟨rfl, rfl, by decide, rfl, rfl, rfl, rfl, by decide, by decide⟩

/-- C5: the conversion rewrite is a no-op exactly on already-physical nodes
and on logical nodes whose spec is not physical-capable, with changed false
and no error in both cases, and applying it to its own output always reports
unchanged. -/
theorem converter_rewrite_noop_cases (pn : PlanNode) :
    (pn.isPhysical = true → physicalConverterRewrite pn = .ok (pn, false))
    ∧ (∀ ln, pn = .LogicalPlanNode ln → ln.spec.physCap = false →
        physicalConverterRewrite pn = .ok (pn, false))
    ∧ (∀ ln, pn = .LogicalPlanNode ln → ln.spec.physCap = true →
        physicalConverterRewrite pn = .ok (physCounterpart ln, true))
    ∧ (∀ nn b, physicalConverterRewrite pn = .ok (nn, b) →
        physicalConverterRewrite nn = .ok (nn, false)) := by
  refine ⟨?_, ?_, ?_, ?_⟩
  · intro hp
    cases pn with
    | LogicalPlanNode ln => cases hp
    | PhysicalPlanNode c => rfl
  · intro ln hln hcap
    subst hln
    simp [physicalConverterRewrite, convertLogicalNode, hcap]
  · intro ln hln hcap
    subst hln
    simp [physicalConverterRewrite, convertLogicalNode, hcap]
  · intro nn b h
    cases pn with
    | PhysicalPlanNode c =>
      have hr : physicalConverterRewrite (.PhysicalPlanNode c)
          = .ok (.PhysicalPlanNode c, false) := rfl
      rw [hr] at h
      injection h with h1
      injection h1 with h2 h3
      subst h2
      exact hr
    | LogicalPlanNode ln =>
      cases hcap : ln.spec.physCap with
      | true =>
        have hr : physicalConverterRewrite (.LogicalPlanNode ln)
            = .ok (physCounterpart ln, true) := by
          simp [physicalConverterRewrite, convertLogicalNode, hcap]
        rw [hr] at h
        injection h with h1
        injection h1 with h2 h3
        subst h2
        rfl
      | false =>
        have hr : physicalConverterRewrite (.LogicalPlanNode ln)
            = .ok (.LogicalPlanNode ln, false) := by
          simp [physicalConverterRewrite, convertLogicalNode, hcap]
        rw [hr] at h
        injection h with h1
        injection h1 with h2 h3
        subst h2
        exact hr

def wpnC5 : PlanNode :=
  .PhysicalPlanNode
    { id := "p",
      edges := { predecessors := [], successors := [] },
      bounds := { start := 0, stop := 0 },
      spec := { kind := "k", physCap := true, validator := none } }

theorem converter_rewrite_noop_cases_witness :
    physicalConverterRewrite wpnC5 = .ok (wpnC5, false) :=
  (converter_rewrite_noop_cases wpnC5).1 rfl

/-- C6: Plan is all-or-nothing; an error from the heuristic step, the bounds
walk, the integrity check or the validation walk becomes the result of Plan
with no plan value and no later pipeline step applied. -/
theorem plan_error_propagation (pp : physicalPlanner) (spec : PlanSpec) :
    (∀ e, heuristicPlan pp.rules spec = .error e →
      physicalPlanner.Plan pp spec = .error e)
    ∧ (∀ t e, heuristicPlan pp.rules spec = .ok t →
      BottomUpWalkUpdate t ComputeBounds = .error e →
      physicalPlanner.Plan pp spec = .error e)
    ∧ (∀ t t2 e, heuristicPlan pp.rules spec = .ok t →
      BottomUpWalkUpdate t ComputeBounds = .ok t2 →
      pp.disableValidation = false → CheckIntegrity t2 = some e →
      physicalPlanner.Plan pp spec = .error e)
    ∧ (∀ t t2 e, heuristicPlan pp.rules spec = .ok t →
      BottomUpWalkUpdate t ComputeBounds = .ok t2 →
      pp.disableValidation = false → CheckIntegrity t2 = none →
      validatePhysicalPlan t2 = some e →
      physicalPlanner.Plan pp spec = .error e) := by
  refine ⟨?_, ?_, ?_, ?_⟩
  · intro e h
    simp [physicalPlanner.Plan, h]
  · intro t e h1 h2
    simp [physicalPlanner.Plan, h1, h2]
  · intro t t2 e h1 h2 h3 h4
    simp [physicalPlanner.Plan, h1, h2, h3, h4]
  · intro t t2 e h1 h2 h3 h4 h5
    simp [physicalPlanner.Plan, h1, h2, h3, h4, h5]

def wruleBoom : Rule :=
  { name := "boom", pattern := Any, rewrite := fun _ => .error "boom" }

def wppC6 : physicalPlanner :=
  { rules := [wruleBoom], defaultMemoryLimit := 0, disableValidation := false }

theorem plan_error_propagation_witness :
    physicalPlanner.Plan wppC6 wplanC4 = .error "boom" :=
  (plan_error_propagation wppC6 wplanC4).1 "boom" rfl

/-- C7: with validation disabled Plan neither checks integrity nor runs the
validation walk; after a successful heuristic step and bounds walk it
succeeds with only the quotas updated, so a leftover logical node stays in
the output unchanged. -/
theorem plan_disable_validation_skips_checks (pp : physicalPlanner) (spec t t2 : PlanSpec)
    (hdv : pp.disableValidation = true)
    (ht : heuristicPlan pp.rules spec = .ok t)
    (ht2 : BottomUpWalkUpdate t ComputeBounds = .ok t2) :
    physicalPlanner.Plan pp spec = .ok (applyQuotas pp t2)
    ∧ (applyQuotas pp t2).nodes = t2.nodes
    ∧ (applyQuotas pp t2).Roots = t2.Roots := by
  refine ⟨?_, rfl, rfl⟩
  simp [physicalPlanner.Plan, ht, ht2, hdv]

def wppC7 : physicalPlanner :=
  { rules := [physicalConverterRule], defaultMemoryLimit := 11, disableValidation := true }

theorem plan_disable_validation_skips_checks_witness :
    physicalPlanner.Plan wppC7 wplanC4 = .ok (applyQuotas wppC7 wplanC4)
    ∧ (applyQuotas wppC7 wplanC4).nodes = wplanC4.nodes
    ∧ (applyQuotas wppC7 wplanC4).Roots = wplanC4.Roots :=
  plan_disable_validation_skips_checks wppC7 wplanC4 wplanC4 wplanC4 rfl rfl rfl

/-- C9: a node with a PostPhysicalValidator hook is judged by the hook alone
during the validation walk; a physical node with a failing hook makes Plan
fail, and a still-logical node with a passing hook passes validation. -/
theorem validator_hook_precedence :
    (∀ (pn : PlanNode) (v : NodeID → Option String),
      pn.ProcedureSpec.validator = some v → validateVisitor pn = v pn.ID)
    ∧ (∀ (pp : physicalPlanner) (spec t t2 : PlanSpec) (id : NodeID) (n : PlanNode)
        (v : NodeID → Option String) (e : String),
      pp.disableValidation = false →
      heuristicPlan pp.rules spec = .ok t →
      BottomUpWalkUpdate t ComputeBounds = .ok t2 →
      CheckIntegrity t2 = none →
      Reachable t2 id → lookupNode t2.nodes id = some n →
      n.isPhysical = true → n.ProcedureSpec.validator = some v → v n.ID = some e →
      ∃ e2, physicalPlanner.Plan pp spec = .error e2)
    ∧ (∀ (pn : PlanNode) (v : NodeID → Option String),
      pn.isPhysical = false → pn.ProcedureSpec.validator = some v → v pn.ID = none →
      validateVisitor pn = none) := by
  refine ⟨?_, ?_, ?_⟩
  · intro pn v hv
    simp [validateVisitor, hv]
  · intro pp spec t t2 id n v e hdv ht ht2 hci hr hl hp hv he
    cases hvp : validatePhysicalPlan t2 with
    | none =>
      have hvp2 : walkCheck t2.nodes validateVisitor (walkOrder t2) = none := hvp
      have hnone := (walkCheck_eq_none_iff t2.nodes validateVisitor (walkOrder t2)).mp
        hvp2 id hr n hl
      simp only [validateVisitor, hv] at hnone
      rw [he] at hnone
      exact absurd hnone (by simp)
    | some e2 =>
      exact ⟨e2, by simp [physicalPlanner.Plan, ht, ht2, hdv, hci, hvp]⟩
  · intro pn v hp hv hn
    simp [validateVisitor, hv, hn]

def whookC9 : NodeID → Option String := fun _ => some "bad"

def wpnC9 : PlanNode :=
  .PhysicalPlanNode
    { id := "n1",
      edges := { predecessors := [], successors := [] },
      bounds := { start := 0, stop := 0 },
      spec := { kind := "k", physCap := true, validator := some whookC9 } }

def wplanC9 : PlanSpec :=
  { Roots := ["n1"], nodes := [wpnC9],
    Resources := { ConcurrencyQuota := 0, MemoryBytesQuota := 0 } }

def wppC9 : physicalPlanner :=
  { rules := [], defaultMemoryLimit := 1, disableValidation := false }

theorem validator_hook_precedence_witness :
    validateVisitor wpnC9 = some "bad"
    ∧ ∃ e2, physicalPlanner.Plan wppC9 wplanC9 = .error e2 :=
  ⟨by rw [validator_hook_precedence.1 wpnC9 whookC9 rfl]; rfl,
   validator_hook_precedence.2.1 wppC9 wplanC9 wplanC9 wplanC9 "n1" wpnC9 whookC9 "bad"
     rfl rfl rfl rfl (by decide) rfl rfl rfl rfl⟩

/-- C10: over the two node variants of the embedding the conversion rewrite
never reaches the panic of the unchecked type assertion; the checked form
always returns the total rewrite. -/
theorem converter_rewrite_total_on_variants (pn : PlanNode) :
    physicalConverterRewriteChecked pn = some (physicalConverterRewrite pn) := by
  cases pn <;> rfl

theorem formatGo_spec (nodes : List PlanNode) :
    ∀ (ids : List NodeID) (s : String) (es : List String),
      formatGo nodes ids (s, es) = (s ++ nodeStr nodes ids, es ++ edgeLineList nodes ids) := by
  intro ids
  induction ids with
  | nil =>
    intro s es
    simp [formatGo, nodeStr, edgeLineList, String.append_empty]
  | cons id rest ih =>
    intro s es
    cases h : lookupNode nodes id with
    | none =>
      simp only [formatGo, nodeStr, edgeLineList, h]
      rw [ih]
      simp [String.empty_append]
    | some n =>
      simp only [formatGo, nodeStr, edgeLineList, h]
      rw [ih]
      simp [String.append_assoc, List.append_assoc]

/-- C8: rendering is a pure projection; Formatted defaults the title to plan
and FormatTitle overrides it, Format emits the digraph block of one
statement line per visited node followed by one predecessor-successor line
per edge, and the formatter leaves the plan untouched. -/
theorem format_projection (p : PlanSpec) (s : String) :
    formatter.Format (Formatted p []) =
      "\ndigraph " ++ "plan" ++ " \x7b\n" ++ nodeStr p.nodes (walkOrder p) ++ "\n"
        ++ printEdges (edgeLineList p.nodes (walkOrder p)) ++ "\x7d\n"
    ∧ formatter.Format (Formatted p [FormatTitle s]) =
      "\ndigraph " ++ s ++ " \x7b\n" ++ nodeStr p.nodes (walkOrder p) ++ "\n"
        ++ printEdges (edgeLineList p.nodes (walkOrder p)) ++ "\x7d\n"
    ∧ (Formatted p []).p = p ∧ (Formatted p [FormatTitle s]).p = p := by
  refine ⟨?_, ?_, rfl, rfl⟩
  · have h1 : Formatted p [] = { t := "plan", p := p } := rfl
    rw [h1]
    simp only [formatter.Format]
    rw [formatGo_spec]
    simp [String.empty_append]
  · have h1 : Formatted p [FormatTitle s] = { t := s, p := p } := rfl
    rw [h1]
    simp only [formatter.Format]
    rw [formatGo_spec]
    simp [String.empty_append]

end FluxPlan
